import Mathlib

/-!
Verification of the phrase-matching library (source: v1_lib_text_search.py).

The library offers:
* levenshtein_distance — Levenshtein edit distance via a rolling-row DP;
* find_exact_offsets — all (overlapping) literal occurrences of a phrase,
  found by repeatedly calling str.find and restarting one past each hit;
* find_fuzzy_offsets — dense sliding-window fuzzy search with a score
  threshold;
* find_offsets_json — a wrapper serializing either result list as JSON.

Texts and phrases are embedded as List Char (Python strings are finite
character sequences; slicing/len translate to take/drop/length).  The
threshold and the fuzzy score are embedded as exact rationals: the Python
floats hold values of the form (L - d) / L and the spec treats scores as
rational numbers.  Python round(x, 3) is half-to-even rounding at three
decimal places, embedded as pyRound3 below.
-/

/-- An exact match record, the dict literal built in find_exact_offsets:
keys offset and length, in that insertion order. -/
structure ExactRec where
  offset : Nat
  length : Nat
deriving DecidableEq, Repr

/-- A fuzzy match record, the dict literal built in find_fuzzy_offsets:
keys offset, length and score, in that insertion order. -/
structure FuzzyRec where
  offset : Nat
  length : Nat
  score : ℚ
deriving DecidableEq, Repr

/-- Inner loop of levenshtein_distance, `for j in range(1, m + 1)`.
At entry of each step, `diag` holds `prev[j-1]`, the head of `prev` holds
`prev[j]`, and `left` holds `curr[j-1]`.  The step computes
`curr[j] = min(prev[j] + 1, curr[j-1] + 1, prev[j-1] + cost)` with
`cost = 0 if a[i-1] == b[j-1] else 1`, exactly as in the source. -/
def buildRow (x : Char) : List Char → List Nat → Nat → Nat → List Nat
  | [], _, _, _ => []
  | y :: bs, prev, diag, left =>
    let up := prev.headD 0
    let cost : Nat := if x = y then 0 else 1
    let c := min (up + 1) (min (left + 1) (diag + cost))
    c :: buildRow x bs prev.tail up c

/-- Outer loop of levenshtein_distance, `for i in range(1, n + 1)`:
each pass replaces `prev` by the row `curr = [i] + ...` computed from it. -/
def levLoop (b : List Char) : List Char → Nat → List Nat → List Nat
  | [], _, prev => prev
  | x :: as, i, prev =>
    levLoop b as (i + 1) (i :: buildRow x b prev.tail (prev.headD 0) i)

/-- Translation of levenshtein_distance(a, b): the special cases for empty
inputs, then the rolling-row DP seeded with `prev = list(range(m + 1))`,
returning `prev[m]`. -/
def levenshtein_distance (a b : List Char) : Nat :=
  let n := a.length
  let m := b.length
  if n = 0 then m
  else if m = 0 then n
  else (levLoop b a 1 (List.range (m + 1))).getD m 0

/-- Whether `text[i : i + len(phrase)] == phrase` (Python slices clamp, so
for a non-empty phrase this forces `i + len(phrase) <= len(text)`). -/
def matchAt (text phrase : List Char) (i : Nat) : Bool :=
  decide ((text.drop i).take phrase.length = phrase)

/-- Translation of Python's `text.find(phrase, start)` (as an Option
instead of the -1 sentinel): the least index `i` with `start <= i`,
`i <= len(text)` and `text[i : i + len(phrase)] == phrase`. -/
def pyFind (text phrase : List Char) (start : Nat) : Option Nat :=
  ((List.range (text.length + 1)).filter
    (fun i => decide (start ≤ i) && matchAt text phrase i)).head?

/-- The `while True` loop of find_exact_offsets: find the next occurrence
from `start`, record it, resume from one past its start.  The loop always
terminates because each found index is at least `start` and at most
`len(text)`; the fuel argument `len(text) + 2` is enough for it never to
run out (lemma findExactAux_eq below treats exactly this regime). -/
def findExactAux (text phrase : List Char) : Nat → Nat → List ExactRec
  | _, 0 => []
  | start, fuel + 1 =>
    match pyFind text phrase start with
    | none => []
    | some idx => ⟨idx, phrase.length⟩ :: findExactAux text phrase (idx + 1) fuel

/-- Translation of find_exact_offsets(text, phrase). -/
def find_exact_offsets (text phrase : List Char) : List ExactRec :=
  findExactAux text phrase 0 (text.length + 2)

/-- Python's round to an integer: half-to-even (banker's rounding). -/
def roundHalfEven (q : ℚ) : ℤ :=
  if Int.fract q < 1 / 2 then ⌊q⌋
  else if 1 / 2 < Int.fract q then ⌊q⌋ + 1
  else if ⌊q⌋ % 2 = 0 then ⌊q⌋ else ⌊q⌋ + 1

/-- Python's round(q, 3): round to three decimal places, ties to even. -/
def pyRound3 (q : ℚ) : ℚ :=
  (roundHalfEven (q * 1000) : ℚ) / 1000

/-- The unrounded window score `(L - dist) / L` computed in
find_fuzzy_offsets (integer subtraction, then true division). -/
def rawScore (phrase window : List Char) : ℚ :=
  ((phrase.length : ℚ) - (levenshtein_distance phrase window : ℚ)) / (phrase.length : ℚ)

/-- Translation of find_fuzzy_offsets(text, phrase, threshold): guard for
`L == 0 or len(text) < L`, then one pass over `range(len(text) - L + 1)`,
appending a record (with the score rounded to 3 places) whenever the
unrounded score reaches the threshold. -/
def find_fuzzy_offsets (text phrase : List Char) (threshold : ℚ) : List FuzzyRec :=
  let L := phrase.length
  if L = 0 ∨ text.length < L then []
  else
    (List.range (text.length - L + 1)).filterMap (fun i =>
      let window := (text.drop i).take L
      let score := rawScore phrase window
      if threshold ≤ score then some ⟨i, L, pyRound3 score⟩ else none)

/-- The JSON documents json.dumps can emit for this library: numbers,
arrays, and objects whose fields keep their insertion order. -/
inductive Jsonish where
  | num : ℚ → Jsonish
  | arr : List Jsonish → Jsonish
  | obj : List (String × Jsonish) → Jsonish

/-- The JSON object for one exact-match dict. -/
def exactRecJson (r : ExactRec) : Jsonish :=
  Jsonish.obj [("offset", Jsonish.num r.offset), ("length", Jsonish.num r.length)]

/-- The JSON object for one fuzzy-match dict. -/
def fuzzyRecJson (r : FuzzyRec) : Jsonish :=
  Jsonish.obj
    [("offset", Jsonish.num r.offset), ("length", Jsonish.num r.length),
      ("score", Jsonish.num r.score)]

/-- Translation of find_offsets_json(text, phrase, fuzzy, threshold): run
one of the two searches and serialize the resulting list; json.dumps of a
Python list always yields a JSON array, whose objects keep dict insertion
order. -/
def find_offsets_json (text phrase : List Char) (fuzzy : Bool) (threshold : ℚ) : Jsonish :=
  if fuzzy then Jsonish.arr ((find_fuzzy_offsets text phrase threshold).map fuzzyRecJson)
  else Jsonish.arr ((find_exact_offsets text phrase).map exactRecJson)

/-!
Reference characterization of Levenshtein distance: the textbook recursion
on the heads of the two lists.  All metric properties are proved for `lev`
and transported to the rolling-row implementation through
levenshtein_distance_eq_lev below.
-/

/-- Head-recursive Levenshtein distance, used as the proof-side
characterization of the DP in the source. -/
def lev : List Char → List Char → Nat
  | [], bs => bs.length
  | _ :: as, [] => as.length + 1
  | x :: as, y :: bs =>
    min (lev as (y :: bs) + 1)
      (min (lev (x :: as) bs + 1) (lev as bs + (if x = y then 0 else 1)))

@[simp]
lemma lev_nil_left (b : List Char) : lev [] b = b.length := by
  simp only [lev]

@[simp]
lemma lev_nil_right (a : List Char) : lev a [] = a.length := by
  cases a <;> simp only [lev, List.length_cons, List.length_nil]

lemma lev_cons_cons (x y : Char) (as bs : List Char) :
    lev (x :: as) (y :: bs) =
      min (lev as (y :: bs) + 1)
        (min (lev (x :: as) bs + 1) (lev as bs + (if x = y then 0 else 1))) := by
  simp only [lev]

lemma lev_le_cons_left (x : Char) (a b : List Char) :
    lev (x :: a) b ≤ lev a b + 1 := by
  cases b with
  | nil => simp
  | cons y bs =>
    rw [lev_cons_cons]
    exact min_le_left _ _

lemma lev_le_cons_right (a : List Char) (y : Char) (b : List Char) :
    lev a (y :: b) ≤ lev a b + 1 := by
  cases a with
  | nil => simp
  | cons x as =>
    rw [lev_cons_cons]
    exact le_trans (min_le_right _ _) (min_le_left _ _)

lemma lev_le_max : ∀ a b : List Char, lev a b ≤ max a.length b.length := by
  intro a
  induction a with
  | nil => intro b; simp
  | cons x as iha =>
    intro b
    induction b with
    | nil => simp
    | cons y bs ihb =>
      have h1 := iha (y :: bs)
      have h2 := ihb
      have h3 := iha bs
      rw [lev_cons_cons]
      simp only [List.length_cons] at *
      by_cases hxy : x = y
      · rw [if_pos hxy]; omega
      · rw [if_neg hxy]; omega

lemma lev_symm : ∀ a b : List Char, lev a b = lev b a := by
  intro a
  induction a with
  | nil => intro b; simp
  | cons x as iha =>
    intro b
    induction b with
    | nil => simp
    | cons y bs ihb =>
      have h1 := iha (y :: bs)
      have h2 := ihb
      have h3 := iha bs
      rw [lev_cons_cons, lev_cons_cons]
      by_cases hxy : x = y
      · rw [if_pos hxy, if_pos hxy.symm]; omega
      · rw [if_neg hxy, if_neg (fun h => hxy h.symm)]; omega

lemma lev_eq_zero : ∀ a b : List Char, lev a b = 0 → a = b := by
  intro a
  induction a with
  | nil =>
    intro b h
    simp only [lev_nil_left] at h
    exact (List.length_eq_zero.mp h).symm
  | cons x as iha =>
    intro b h
    cases b with
    | nil =>
      simp only [lev_nil_right, List.length_cons] at h
      exact absurd h (Nat.succ_ne_zero _)
    | cons y bs =>
      rw [lev_cons_cons] at h
      by_cases hxy : x = y
      · rw [if_pos hxy] at h
        have h0 : lev as bs = 0 := by omega
        rw [hxy, iha bs h0]
      · rw [if_neg hxy] at h
        omega

lemma lev_self : ∀ a : List Char, lev a a = 0 := by
  intro a
  induction a with
  | nil => simp
  | cons x as ih =>
    rw [lev_cons_cons, if_pos rfl]
    omega

lemma lev_eq_zero_iff (a b : List Char) : lev a b = 0 ↔ a = b := by
  constructor
  · exact lev_eq_zero a b
  · intro h; rw [h]; exact lev_self b

lemma length_le_lev : ∀ a b : List Char, b.length ≤ a.length + lev a b := by
  intro a
  induction a with
  | nil => intro b; simp
  | cons x as iha =>
    intro b
    induction b with
    | nil => simp
    | cons y bs ihb =>
      have h1 := iha (y :: bs)
      have h2 := ihb
      have h3 := iha bs
      rw [lev_cons_cons]
      simp only [List.length_cons] at *
      by_cases hxy : x = y
      · rw [if_pos hxy]; omega
      · rw [if_neg hxy]; omega

lemma length_le_lev' (a b : List Char) : a.length ≤ b.length + lev a b := by
  have := length_le_lev b a
  rw [lev_symm a b]
  omega

lemma lev_le_add_lengths (a b : List Char) : lev a b ≤ a.length + b.length := by
  have := lev_le_max a b
  omega

lemma lev_triangle_aux :
    ∀ (n : Nat) (a c b : List Char),
      a.length + c.length + b.length ≤ n → lev a b ≤ lev a c + lev c b := by
  intro n
  induction n with
  | zero =>
    intro a c b h
    have ha : a.length = 0 := by omega
    have hb : b.length = 0 := by omega
    rw [List.length_eq_zero.mp ha, List.length_eq_zero.mp hb]
    simp
  | succ n ih =>
    intro a c b hlen
    match a, c, b with
    | a, [], b =>
      have := lev_le_add_lengths a b
      simp only [lev_nil_left, lev_nil_right]
      omega
    | [], z :: c, b =>
      have := length_le_lev (z :: c) b
      simp only [lev_nil_left, List.length_cons] at *
      omega
    | x :: a, z :: c, [] =>
      have := length_le_lev' (x :: a) (z :: c)
      simp only [lev_nil_right, List.length_cons] at *
      omega
    | x :: a, z :: c, y :: b =>
      simp only [List.length_cons] at hlen
      have I1 := ih a (z :: c) (y :: b) (by simp only [List.length_cons]; omega)
      have I2 := ih (x :: a) (z :: c) b (by simp only [List.length_cons]; omega)
      have I3 := ih a c (y :: b) (by simp only [List.length_cons]; omega)
      have I5 := ih a c b (by omega)
      have I6 := ih (x :: a) c (y :: b) (by simp only [List.length_cons]; omega)
      have H1 := lev_le_cons_right c y b
      have E1 := lev_cons_cons x y a b
      have E2 := lev_cons_cons x z a c
      have E3 := lev_cons_cons z y c b
      by_cases hxz : x = z <;> by_cases hzy : z = y
      · have hxy : x = y := hxz.trans hzy
        rw [if_pos hxy] at E1
        rw [if_pos hxz] at E2
        rw [if_pos hzy] at E3
        omega
      · have hxy : ¬ (x = y) := fun h => hzy (hxz.symm.trans h)
        rw [if_neg hxy] at E1
        rw [if_pos hxz] at E2
        rw [if_neg hzy] at E3
        omega
      · by_cases hxy : x = y
        · rw [if_pos hxy] at E1
          rw [if_neg hxz] at E2
          rw [if_pos hzy] at E3
          omega
        · rw [if_neg hxy] at E1
          rw [if_neg hxz] at E2
          rw [if_pos hzy] at E3
          omega
      · by_cases hxy : x = y
        · rw [if_pos hxy] at E1
          rw [if_neg hxz] at E2
          rw [if_neg hzy] at E3
          omega
        · rw [if_neg hxy] at E1
          rw [if_neg hxz] at E2
          rw [if_neg hzy] at E3
          omega

lemma lev_triangle (a c b : List Char) : lev a b ≤ lev a c + lev c b :=
  lev_triangle_aux (a.length + c.length + b.length) a c b le_rfl

/-!
Correctness of the rolling-row DP.  The invariant: after the outer loop has
consumed the first `i` symbols of `a`, the row holds the distances between
the reversed consumed part `r` (so `lev` can recurse on its head) and every
prefix of `b`.  `rowTail r q bs` lists those distances for the prefixes
that extend the already-scanned reversed prefix `q` by one more symbol of
`bs` each.
-/

/-- Distances from `r` to each reversed prefix of `q ++ bs` that extends
`q` (entries `j = q.length + 1 .. q.length + bs.length` of a DP row). -/
def rowTail (r : List Char) : List Char → List Char → List Nat
  | _, [] => []
  | q, y :: bs => lev r (y :: q) :: rowTail r (y :: q) bs

/-- A full DP row for the reversed consumed part `r` of `a`. -/
def fullRow (r b : List Char) : List Nat :=
  r.length :: rowTail r [] b

lemma buildRow_spec (x : Char) (r : List Char) :
    ∀ (bs q : List Char),
      buildRow x bs (rowTail r q bs) (lev r q) (lev (x :: r) q) = rowTail (x :: r) q bs := by
  intro bs
  induction bs with
  | nil => intro q; rfl
  | cons y bs ih =>
    intro q
    rw [rowTail, buildRow]
    simp only [List.headD_cons, List.tail_cons]
    rw [← lev_cons_cons x y r q, rowTail]
    exact congrArg _ (ih (y :: q))

lemma levLoop_spec (b : List Char) :
    ∀ (as r : List Char),
      levLoop b as (r.length + 1) (fullRow r b) = fullRow (List.reverseAux as r) b := by
  intro as
  induction as with
  | nil => intro r; rfl
  | cons x as ih =>
    intro r
    rw [levLoop]
    have hd : (fullRow r b).headD 0 = lev r [] := by
      simp [fullRow]
    have ht : (fullRow r b).tail = rowTail r [] b := rfl
    rw [hd, ht]
    rw [lev_nil_right r]
    have hb0 := buildRow_spec x r b []
    rw [lev_nil_right r] at hb0
    have hl : lev (x :: r) [] = r.length + 1 := by simp
    rw [hl] at hb0
    rw [hb0]
    have h2 : (r.length + 1) :: rowTail (x :: r) [] b = fullRow (x :: r) b := rfl
    rw [h2]
    have h3 := ih (x :: r)
    simp only [List.length_cons] at h3
    exact h3

lemma rowTail_nil :
    ∀ (bs q : List Char), rowTail [] q bs = List.range' (q.length + 1) bs.length := by
  intro bs
  induction bs with
  | nil => intro q; rfl
  | cons y bs ih =>
    intro q
    rw [rowTail]
    simp only [lev_nil_left, List.length_cons]
    rw [List.range'_succ]
    have h := ih (y :: q)
    simp only [List.length_cons] at h
    rw [h]

lemma fullRow_nil (b : List Char) : fullRow [] b = List.range (b.length + 1) := by
  rw [fullRow, rowTail_nil, List.range_eq_range', List.range'_succ]
  rfl

lemma rowTail_getD :
    ∀ (bs : List Char), bs ≠ [] → ∀ (r q : List Char),
      (rowTail r q bs).getD (bs.length - 1) 0 = lev r (bs.reverse ++ q) := by
  intro bs
  induction bs with
  | nil => intro h; exact absurd rfl h
  | cons y bs ih =>
    intro _ r q
    cases hbs : bs with
    | nil => simp [rowTail]
    | cons z bs2 =>
      rw [← hbs]
      have hne : bs ≠ [] := by rw [hbs]; exact List.cons_ne_nil _ _
      have hlen : (y :: bs).length - 1 = (bs.length - 1) + 1 := by
        simp only [List.length_cons]
        cases bs with
        | nil => exact absurd rfl hne
        | cons _ _ => simp
      rw [rowTail, hlen, List.getD_cons_succ, ih hne r (y :: q)]
      congr 1
      rw [List.reverse_cons, List.append_assoc]
      rfl

lemma fullRow_getD (r b : List Char) :
    (fullRow r b).getD b.length 0 = lev r b.reverse := by
  cases hb : b with
  | nil => simp [fullRow]
  | cons y bs =>
    rw [← hb]
    have hne : b ≠ [] := by rw [hb]; exact List.cons_ne_nil _ _
    have hlen : b.length = (b.length - 1) + 1 := by
      cases b with
      | nil => exact absurd rfl hne
      | cons _ _ => simp
    rw [fullRow, hlen, List.getD_cons_succ, rowTail_getD b hne r []]
    rw [List.append_nil]

/-- The rolling-row implementation agrees with the head recursion on the
reversed inputs (reversal lines the DP's prefix processing up with the
recursion's head processing). -/
lemma levenshtein_distance_eq_lev (a b : List Char) :
    levenshtein_distance a b = lev a.reverse b.reverse := by
  by_cases ha : a.length = 0
  · rw [List.length_eq_zero.mp ha]
    simp [levenshtein_distance]
  · by_cases hb : b.length = 0
    · rw [List.length_eq_zero.mp hb]
      simp [levenshtein_distance, ha]
    · simp only [levenshtein_distance, if_neg ha, if_neg hb]
      rw [← fullRow_nil b]
      have h := levLoop_spec b a []
      simp only [List.length_nil, Nat.zero_add] at h
      rw [List.reverseAux_eq, List.append_nil] at h
      rw [h, fullRow_getD]

lemma levenshtein_distance_eq_zero_iff (a b : List Char) :
    levenshtein_distance a b = 0 ↔ a = b := by
  rw [levenshtein_distance_eq_lev, lev_eq_zero_iff, List.reverse_inj]

lemma levenshtein_distance_symm (a b : List Char) :
    levenshtein_distance a b = levenshtein_distance b a := by
  rw [levenshtein_distance_eq_lev, levenshtein_distance_eq_lev, lev_symm]

lemma levenshtein_distance_triangle (a c b : List Char) :
    levenshtein_distance a b ≤ levenshtein_distance a c + levenshtein_distance c b := by
  rw [levenshtein_distance_eq_lev, levenshtein_distance_eq_lev, levenshtein_distance_eq_lev]
  exact lev_triangle a.reverse c.reverse b.reverse

lemma levenshtein_distance_le_max (a b : List Char) :
    levenshtein_distance a b ≤ max a.length b.length := by
  rw [levenshtein_distance_eq_lev]
  have := lev_le_max a.reverse b.reverse
  simpa using this

lemma levenshtein_distance_nil_left (b : List Char) :
    levenshtein_distance [] b = b.length := rfl

lemma levenshtein_distance_nil_right (a : List Char) :
    levenshtein_distance a [] = a.length := by
  rw [levenshtein_distance_eq_lev]
  simp

/-!
Characterization of the exact scan.  pyFind returns the head of the
filtered sorted index list; each loop step peels exactly that head off,
so the whole loop returns one record per index passing the filter.
-/

lemma pyFind_eq_some {text phrase : List Char} {start idx : Nat}
    (h : pyFind text phrase start = some idx) :
    start ≤ idx ∧ idx < text.length + 1 ∧ matchAt text phrase idx = true := by
  rw [pyFind] at h
  cases hl : (List.range (text.length + 1)).filter
      (fun i => decide (start ≤ i) && matchAt text phrase i) with
  | nil => rw [hl] at h; exact absurd h (by simp)
  | cons c t =>
    rw [hl] at h
    simp only [List.head?_cons, Option.some_inj] at h
    have hc : c ∈ (List.range (text.length + 1)).filter
        (fun i => decide (start ≤ i) && matchAt text phrase i) := by
      rw [hl]; exact List.mem_cons_self c t
    rw [List.mem_filter, List.mem_range] at hc
    simp only [Bool.and_eq_true, decide_eq_true_eq] at hc
    rw [← h]
    exact ⟨hc.2.1, hc.1, hc.2.2⟩

lemma filter_head_cons {cond : Nat → Bool} :
    ∀ (l : List Nat), l.Pairwise (· < ·) → ∀ (start idx : Nat) (rest : List Nat),
      l.filter (fun i => decide (start ≤ i) && cond i) = idx :: rest →
      rest = l.filter (fun i => decide (idx + 1 ≤ i) && cond i) := by
  intro l
  induction l with
  | nil =>
    intro _ start idx rest h
    simp only [List.filter_nil] at h
    exact absurd h (by simp)
  | cons a l ih =>
    intro hp start idx rest h
    have hpl : l.Pairwise (· < ·) := (List.pairwise_cons.mp hp).2
    have hal : ∀ b ∈ l, a < b := (List.pairwise_cons.mp hp).1
    by_cases hcond : (decide (start ≤ a) && cond a) = true
    · rw [@List.filter_cons_of_pos Nat (fun i => decide (start ≤ i) && cond i) a l hcond] at h
      have hidx : idx = a := (List.cons_eq_cons.mp h).1.symm
      have hrest : rest = l.filter (fun i => decide (start ≤ i) && cond i) :=
        (List.cons_eq_cons.mp h).2.symm
      have hne : ¬ ((fun i => decide (idx + 1 ≤ i) && cond i) a = true) := by
        simp only [Bool.and_eq_true, decide_eq_true_eq, not_and]
        intro hle
        omega
      rw [hrest, hidx,
        @List.filter_cons_of_neg Nat (fun i => decide (a + 1 ≤ i) && cond i) a l (hidx ▸ hne)]
      apply List.filter_congr
      intro b hb
      have hab : a < b := hal b hb
      have hsa : start ≤ a := by
        simp only [Bool.and_eq_true, decide_eq_true_eq] at hcond
        exact hcond.1
      have h1 : decide (start ≤ b) = true := by
        simp only [decide_eq_true_eq]; omega
      have h2 : decide (a + 1 ≤ b) = true := by
        simp only [decide_eq_true_eq]; omega
      simp only [h1, h2]
    · rw [@List.filter_cons_of_neg Nat (fun i => decide (start ≤ i) && cond i) a l hcond] at h
      have hrec := ih hpl start idx rest h
      rw [hrec]
      have hidx : idx ∈ l.filter (fun i => decide (start ≤ i) && cond i) := by
        rw [h]; exact List.mem_cons_self idx rest
      rw [List.mem_filter] at hidx
      have hai : a < idx := hal idx hidx.1
      have hne : ¬ ((fun i => decide (idx + 1 ≤ i) && cond i) a = true) := by
        simp only [Bool.and_eq_true, decide_eq_true_eq, not_and]
        intro hle
        omega
      rw [@List.filter_cons_of_neg Nat (fun i => decide (idx + 1 ≤ i) && cond i) a l hne]

lemma findExactAux_eq (text phrase : List Char) :
    ∀ (fuel start : Nat), text.length + 2 ≤ fuel + start →
      findExactAux text phrase start fuel =
        ((List.range (text.length + 1)).filter
          (fun i => decide (start ≤ i) && matchAt text phrase i)).map
          (fun i => (⟨i, phrase.length⟩ : ExactRec)) := by
  intro fuel
  induction fuel with
  | zero =>
    intro start h
    have hnil : (List.range (text.length + 1)).filter
        (fun i => decide (start ≤ i) && matchAt text phrase i) = [] := by
      rw [List.filter_eq_nil_iff]
      intro i hi
      rw [List.mem_range] at hi
      simp only [Bool.and_eq_true, decide_eq_true_eq, not_and]
      intro hle
      omega
    rw [hnil]
    rfl
  | succ fuel ih =>
    intro start h
    rw [findExactAux]
    cases hf : pyFind text phrase start with
    | none =>
      rw [pyFind] at hf
      rw [List.head?_eq_none_iff] at hf
      rw [hf]
      rfl
    | some idx =>
      have hb := pyFind_eq_some hf
      rw [pyFind] at hf
      cases hl : (List.range (text.length + 1)).filter
          (fun i => decide (start ≤ i) && matchAt text phrase i) with
      | nil => rw [hl] at hf; exact absurd hf (by simp)
      | cons c t =>
        rw [hl] at hf
        simp only [List.head?_cons, Option.some_inj] at hf
        have hc : c = idx := hf
        have ht : t = (List.range (text.length + 1)).filter
            (fun i => decide (idx + 1 ≤ i) && matchAt text phrase i) := by
          apply filter_head_cons (List.range (text.length + 1))
            (List.pairwise_lt_range _) start idx t
          rw [hl, hc]
        rw [hc, ht, List.map_cons]
        exact congrArg _ (ih (idx + 1) (by omega))

/-- The exact scan, in closed form: one record (carrying the phrase
length) per index of the text at which the phrase occurs, in increasing
index order. -/
lemma find_exact_offsets_eq (text phrase : List Char) :
    find_exact_offsets text phrase =
      ((List.range (text.length + 1)).filter (matchAt text phrase)).map
        (fun i => (⟨i, phrase.length⟩ : ExactRec)) := by
  rw [find_exact_offsets, findExactAux_eq text phrase (text.length + 2) 0 (by omega)]
  congr 1
  apply List.filter_congr
  intro i _
  simp

/-!
Characterization of the fuzzy scan and bounds on the window score.
-/

lemma filterMap_if_eq_map_filter {β : Type} (g : Nat → β) (p : Nat → Prop)
    [DecidablePred p] :
    ∀ l : List Nat,
      l.filterMap (fun i => if p i then some (g i) else none) =
        (l.filter (fun i => decide (p i))).map g := by
  intro l
  induction l with
  | nil => rfl
  | cons a l ih =>
    by_cases h : p a
    · simp only [List.filterMap_cons, List.filter_cons, if_pos h, List.map_cons, ih]
      rw [if_pos (by simp [h])]
      rfl
    · simp only [List.filterMap_cons, List.filter_cons, if_neg h, ih]
      rw [if_neg (by simp [h])]

/-- The fuzzy scan, in closed form: one record per window index whose
unrounded score reaches the threshold, carrying the rounded score. -/
lemma find_fuzzy_offsets_eq (text phrase : List Char) (t : ℚ)
    (hp : phrase ≠ []) (hl : phrase.length ≤ text.length) :
    find_fuzzy_offsets text phrase t =
      ((List.range (text.length - phrase.length + 1)).filter
        (fun i => decide (t ≤ rawScore phrase ((text.drop i).take phrase.length)))).map
        (fun i =>
          (⟨i, phrase.length,
            pyRound3 (rawScore phrase ((text.drop i).take phrase.length))⟩ : FuzzyRec)) := by
  have hg : ¬ (phrase.length = 0 ∨ text.length < phrase.length) := by
    rintro (h0 | hlt)
    · exact hp (List.length_eq_zero.mp h0)
    · omega
  simp only [find_fuzzy_offsets]
  rw [if_neg hg]
  exact filterMap_if_eq_map_filter _ _ _

lemma find_fuzzy_offsets_map_offset (text phrase : List Char) (t : ℚ)
    (hp : phrase ≠ []) (hl : phrase.length ≤ text.length) :
    (find_fuzzy_offsets text phrase t).map (fun r => r.offset) =
      (List.range (text.length - phrase.length + 1)).filter
        (fun i => decide (t ≤ rawScore phrase ((text.drop i).take phrase.length))) := by
  rw [find_fuzzy_offsets_eq text phrase t hp hl, List.map_map]
  exact List.map_id _

lemma window_length (text : List Char) {L i : Nat} (h : i + L ≤ text.length) :
    ((text.drop i).take L).length = L := by
  simp only [List.length_take, List.length_drop]
  omega

lemma phrase_length_pos {phrase : List Char} (hp : phrase ≠ []) :
    (0 : ℚ) < phrase.length := by
  have := List.length_pos.mpr hp
  exact_mod_cast this

lemma rawScore_le_one (phrase w : List Char) (hp : phrase ≠ []) :
    rawScore phrase w ≤ 1 := by
  have hLpos := phrase_length_pos hp
  rw [rawScore, div_le_one hLpos]
  have hd : (0 : ℚ) ≤ (levenshtein_distance phrase w : ℚ) := Nat.cast_nonneg _
  linarith

lemma rawScore_nonneg (phrase w : List Char) (hp : phrase ≠ [])
    (hw : w.length = phrase.length) : 0 ≤ rawScore phrase w := by
  have hLpos := phrase_length_pos hp
  have hd : levenshtein_distance phrase w ≤ phrase.length := by
    have := levenshtein_distance_le_max phrase w
    omega
  apply div_nonneg _ hLpos.le
  have : (levenshtein_distance phrase w : ℚ) ≤ (phrase.length : ℚ) := by
    exact_mod_cast hd
  linarith

lemma one_le_rawScore_iff (phrase w : List Char) (hp : phrase ≠ []) :
    1 ≤ rawScore phrase w ↔ levenshtein_distance phrase w = 0 := by
  have hLpos := phrase_length_pos hp
  rw [rawScore, one_le_div hLpos]
  constructor
  · intro h
    have h0 : (levenshtein_distance phrase w : ℚ) ≤ 0 := by linarith
    have h1 : (levenshtein_distance phrase w : ℚ) = 0 :=
      le_antisymm h0 (Nat.cast_nonneg _)
    exact_mod_cast h1
  · intro h
    rw [h]
    simp

lemma find_fuzzy_offsets_nil (text phrase : List Char) (t : ℚ)
    (h : phrase.length = 0 ∨ text.length < phrase.length) :
    find_fuzzy_offsets text phrase t = [] := by
  simp only [find_fuzzy_offsets]
  rw [if_pos h]

/-!
The claims.
-/

/-- Claim C3: levenshtein_distance is a non-negative integer, is zero
exactly on equal inputs, is symmetric, satisfies the triangle inequality,
is bounded by the longer input's length, and on an empty input returns the
other input's length. -/
theorem claim_C3 (a b c : List Char) :
    0 ≤ levenshtein_distance a b
    ∧ (levenshtein_distance a b = 0 ↔ a = b)
    ∧ levenshtein_distance a b = levenshtein_distance b a
    ∧ levenshtein_distance a b ≤ levenshtein_distance a c + levenshtein_distance c b
    ∧ levenshtein_distance a b ≤ max a.length b.length
    ∧ levenshtein_distance [] b = b.length
    ∧ levenshtein_distance a [] = a.length :=
  ⟨Nat.zero_le _, levenshtein_distance_eq_zero_iff a b, levenshtein_distance_symm a b,
    levenshtein_distance_triangle a c b, levenshtein_distance_le_max a b,
    levenshtein_distance_nil_left b, levenshtein_distance_nil_right a⟩

/-- Claim C1: for a non-empty phrase, find_exact_offsets reports offset
`i` exactly when `text[i : i + len(phrase)] == phrase`; in particular all
overlapping occurrences are reported. -/
theorem claim_C1 (text phrase : List Char) (hp : phrase ≠ []) :
    ∀ i : Nat,
      i ∈ (find_exact_offsets text phrase).map (fun r => r.offset) ↔
        (text.drop i).take phrase.length = phrase := by
  intro i
  rw [find_exact_offsets_eq, List.map_map]
  have hid : ((fun r => ExactRec.offset r) ∘ fun i => (⟨i, phrase.length⟩ : ExactRec)) =
      id := rfl
  rw [hid, List.map_id, List.mem_filter, List.mem_range]
  constructor
  · rintro ⟨-, hm⟩
    exact of_decide_eq_true hm
  · intro hm
    refine ⟨?_, decide_eq_true hm⟩
    have hlen : ((text.drop i).take phrase.length).length = phrase.length := by rw [hm]
    simp only [List.length_take, List.length_drop] at hlen
    have hL1 : 1 ≤ phrase.length := List.length_pos.mpr hp
    omega

/-- Witness for C1: the overlapping occurrences of "aa" in "aaa"; offset 1
is reported even though it overlaps the match at offset 0. -/
theorem claim_C1_witness :
    (['a', 'a'] : List Char) ≠ []
    ∧ 1 ∈ (find_exact_offsets ['a', 'a', 'a'] ['a', 'a']).map (fun r => r.offset) :=
  ⟨by decide, (claim_C1 ['a', 'a', 'a'] ['a', 'a'] (by decide) 1).mpr (by decide)⟩

/-- Claim C9: on an empty phrase, find_exact_offsets terminates and
returns one length-0 record at every offset 0, 1, ..., len(text). -/
theorem claim_C9 (text : List Char) :
    find_exact_offsets text [] =
      (List.range (text.length + 1)).map (fun i => (⟨i, 0⟩ : ExactRec))
    ∧ (find_exact_offsets text []).length = text.length + 1 := by
  have h1 : find_exact_offsets text [] =
      (List.range (text.length + 1)).map (fun i => (⟨i, 0⟩ : ExactRec)) := by
    rw [find_exact_offsets_eq]
    congr 1
    apply List.filter_eq_self.mpr
    intro a _
    apply decide_eq_true
    simp [List.take_zero]
  exact ⟨h1, by rw [h1, List.length_map, List.length_range]⟩

/-- Claim C6: an empty phrase or a text shorter than the phrase makes
find_fuzzy_offsets return the empty list (no exception, deterministic). -/
theorem claim_C6 (text phrase : List Char) (t : ℚ)
    (h : phrase = [] ∨ text.length < phrase.length) :
    find_fuzzy_offsets text phrase t = [] := by
  apply find_fuzzy_offsets_nil
  rcases h with h | h
  · left; rw [h]; rfl
  · right; exact h

/-- Witness for C6: the empty phrase against a one-symbol text. -/
theorem claim_C6_witness : find_fuzzy_offsets ['a'] [] (1 / 2) = [] :=
  claim_C6 ['a'] [] (1 / 2) (Or.inl rfl)

/-- Claim C10: in exact mode find_offsets_json ignores the threshold
argument entirely, so any two thresholds yield identical output. -/
theorem claim_C10 (text phrase : List Char) (t1 t2 : ℚ) :
    find_offsets_json text phrase false t1 = find_offsets_json text phrase false t2 := rfl

/-- Claim C8: find_offsets_json always renders a JSON array of objects —
also for zero or one matches, never a bare object — and each object's keys
are, in order, offset, length, and (in fuzzy mode only) score. -/
theorem claim_C8 (text phrase : List Char) (fz : Bool) (t : ℚ) :
    ∃ ms : List Jsonish,
      find_offsets_json text phrase fz t = Jsonish.arr ms
      ∧ ∀ o ∈ ms, ∃ fs : List (String × Jsonish),
          o = Jsonish.obj fs
          ∧ fs.map Prod.fst =
              (if fz then ["offset", "length", "score"] else ["offset", "length"]) := by
  cases fz
  · refine ⟨(find_exact_offsets text phrase).map exactRecJson, rfl, ?_⟩
    intro o ho
    rw [List.mem_map] at ho
    rcases ho with ⟨r, -, rfl⟩
    exact ⟨_, rfl, rfl⟩
  · refine ⟨(find_fuzzy_offsets text phrase t).map fuzzyRecJson, rfl, ?_⟩
    intro o ho
    rw [List.mem_map] at ho
    rcases ho with ⟨r, -, rfl⟩
    exact ⟨_, rfl, rfl⟩

/-- Claim C2: for a non-empty phrase no longer than the text,
find_fuzzy_offsets reports window `i` exactly when the window exists and
its unrounded score reaches the threshold (so rounding never affects the
comparison), and each record carries the rounded score and the phrase
length. -/
theorem claim_C2 (text phrase : List Char) (t : ℚ)
    (hp : phrase ≠ []) (hl : phrase.length ≤ text.length) :
    (∀ i : Nat,
      i ∈ (find_fuzzy_offsets text phrase t).map (fun r => r.offset) ↔
        (i + phrase.length ≤ text.length
          ∧ t ≤ rawScore phrase ((text.drop i).take phrase.length)))
    ∧ (∀ r ∈ find_fuzzy_offsets text phrase t,
        r.score = pyRound3 (rawScore phrase ((text.drop r.offset).take phrase.length))
        ∧ r.length = phrase.length) := by
  constructor
  · intro i
    rw [find_fuzzy_offsets_map_offset text phrase t hp hl,
      List.mem_filter, List.mem_range]
    constructor
    · rintro ⟨hi, hs⟩
      exact ⟨by omega, of_decide_eq_true hs⟩
    · rintro ⟨hi, hs⟩
      exact ⟨by omega, decide_eq_true hs⟩
  · intro r hr
    rw [find_fuzzy_offsets_eq text phrase t hp hl, List.mem_map] at hr
    rcases hr with ⟨i, -, rfl⟩
    exact ⟨rfl, rfl⟩

/-- Witness for C2, at text "abc", phrase "b", threshold 1/2. -/
theorem claim_C2_witness :
    (['b'] : List Char) ≠ []
    ∧ (['b'] : List Char).length ≤ (['a', 'b', 'c'] : List Char).length
    ∧ ((∀ i : Nat,
        i ∈ (find_fuzzy_offsets ['a', 'b', 'c'] ['b'] (1 / 2)).map (fun r => r.offset) ↔
          (i + (['b'] : List Char).length ≤ (['a', 'b', 'c'] : List Char).length
            ∧ 1 / 2 ≤ rawScore ['b'] (((['a', 'b', 'c'] : List Char).drop i).take
                (['b'] : List Char).length)))
      ∧ (∀ r ∈ find_fuzzy_offsets ['a', 'b', 'c'] ['b'] (1 / 2),
          r.score = pyRound3 (rawScore ['b'] (((['a', 'b', 'c'] : List Char).drop
              r.offset).take (['b'] : List Char).length))
          ∧ r.length = (['b'] : List Char).length)) :=
  ⟨by decide, by decide, claim_C2 ['a', 'b', 'c'] ['b'] (1 / 2) (by decide) (by decide)⟩

/-- Claim C4: with threshold 1, the fuzzy scan reports exactly the offsets
of the exact scan (score 1 means distance 0 means literal equality). -/
theorem claim_C4 (text phrase : List Char)
    (hp : phrase ≠ []) (hl : phrase.length ≤ text.length) :
    (find_fuzzy_offsets text phrase 1).map (fun r => r.offset) =
      (find_exact_offsets text phrase).map (fun r => r.offset) := by
  rw [find_fuzzy_offsets_map_offset text phrase 1 hp hl,
    find_exact_offsets_eq, List.map_map]
  have hid : ((fun r => ExactRec.offset r) ∘ fun i => (⟨i, phrase.length⟩ : ExactRec)) =
      id := rfl
  rw [hid, List.map_id]
  have hsplit : List.range (text.length + 1) =
      List.range (text.length - phrase.length + 1) ++
        (List.range phrase.length).map (fun k => text.length - phrase.length + 1 + k) := by
    rw [← List.range_add]
    congr 1
    omega
  rw [hsplit, List.filter_append]
  have h2 : ((List.range phrase.length).map
      (fun k => text.length - phrase.length + 1 + k)).filter (matchAt text phrase) = [] := by
    rw [List.filter_eq_nil_iff]
    intro a ha
    rw [List.mem_map] at ha
    rcases ha with ⟨k, hk, rfl⟩
    rw [List.mem_range] at hk
    intro hm
    have hmm := of_decide_eq_true hm
    have hlen : ((text.drop (text.length - phrase.length + 1 + k)).take
        phrase.length).length = phrase.length := by rw [hmm]
    simp only [List.length_take, List.length_drop] at hlen
    have hL1 : 1 ≤ phrase.length := List.length_pos.mpr hp
    omega
  rw [h2, List.append_nil]
  apply List.filter_congr
  intro i hi
  rw [List.mem_range] at hi
  have hiL : i + phrase.length ≤ text.length := by omega
  rw [matchAt, decide_eq_decide]
  rw [one_le_rawScore_iff phrase _ hp, levenshtein_distance_eq_zero_iff]
  exact eq_comm

/-- Witness for C4: phrase "aa" in text "aaa" (overlapping matches). -/
theorem claim_C4_witness :
    (find_fuzzy_offsets ['a', 'a', 'a'] ['a', 'a'] 1).map (fun r => r.offset) =
      (find_exact_offsets ['a', 'a', 'a'] ['a', 'a']).map (fun r => r.offset) :=
  claim_C4 ['a', 'a', 'a'] ['a', 'a'] (by decide) (by decide)

/-- Claim C5: for a non-empty phrase no longer than the text, a threshold
at most 0 admits every window (len(text) - L + 1 records, one per window
index), a threshold above 1 admits none, and neither case raises. -/
theorem claim_C5 (text phrase : List Char) (t : ℚ)
    (hp : phrase ≠ []) (hl : phrase.length ≤ text.length) :
    (t ≤ 0 →
      (find_fuzzy_offsets text phrase t).map (fun r => r.offset) =
          List.range (text.length - phrase.length + 1)
        ∧ (find_fuzzy_offsets text phrase t).length =
            text.length - phrase.length + 1)
    ∧ (1 < t → find_fuzzy_offsets text phrase t = []) := by
  constructor
  · intro ht
    have hmap := find_fuzzy_offsets_map_offset text phrase t hp hl
    have hall : (List.range (text.length - phrase.length + 1)).filter
        (fun i => decide (t ≤ rawScore phrase ((text.drop i).take phrase.length))) =
        List.range (text.length - phrase.length + 1) := by
      apply List.filter_eq_self.mpr
      intro i hi
      rw [List.mem_range] at hi
      apply decide_eq_true
      have hiL : i + phrase.length ≤ text.length := by omega
      have hw := window_length text hiL
      have h0 := rawScore_nonneg phrase ((text.drop i).take phrase.length) hp hw
      linarith
    have h1 : (find_fuzzy_offsets text phrase t).map (fun r => r.offset) =
        List.range (text.length - phrase.length + 1) := hmap.trans hall
    refine ⟨h1, ?_⟩
    have h2 := congrArg List.length h1
    rw [List.length_map, List.length_range] at h2
    exact h2
  · intro ht
    rw [find_fuzzy_offsets_eq text phrase t hp hl]
    have hnone : (List.range (text.length - phrase.length + 1)).filter
        (fun i => decide (t ≤ rawScore phrase ((text.drop i).take phrase.length))) = [] := by
      rw [List.filter_eq_nil_iff]
      intro i _
      simp only [decide_eq_true_eq]
      intro hts
      have := rawScore_le_one phrase ((text.drop i).take phrase.length) hp
      linarith
    rw [hnone]
    rfl

/-- Witness for C5, at threshold 0 (every window of "ab" for phrase "a"
qualifies). -/
theorem claim_C5_witness :
    (find_fuzzy_offsets ['a', 'b'] ['a'] 0).map (fun r => r.offset) =
        List.range ((['a', 'b'] : List Char).length - (['a'] : List Char).length + 1)
      ∧ (find_fuzzy_offsets ['a', 'b'] ['a'] 0).length =
          (['a', 'b'] : List Char).length - (['a'] : List Char).length + 1 :=
  (claim_C5 ['a', 'b'] ['a'] 0 (by decide) (by decide)).1 le_rfl

/-- Counterexample to C7 as stated: with an empty phrase the exact scan
emits records whose length is 0, not positive. -/
theorem claim_C7_counterexample :
    (⟨0, 0⟩ : ExactRec) ∈ find_exact_offsets ['a'] []
    ∧ ¬ (0 < (⟨0, 0⟩ : ExactRec).length) := by
  constructor
  · decide
  · decide

/-- Claim C7 (amended): every record of either search has length equal to
len(phrase) and satisfies offset + length <= len(text), records appear in
strictly increasing offset order, and the length is positive whenever the
phrase is non-empty (for the empty phrase the exact scan emits length-0
records). -/
theorem claim_C7_amended (text phrase : List Char) (t : ℚ) :
    (∀ r ∈ find_exact_offsets text phrase,
        r.length = phrase.length ∧ r.offset + r.length ≤ text.length)
    ∧ (∀ r ∈ find_fuzzy_offsets text phrase t,
        r.length = phrase.length ∧ r.offset + r.length ≤ text.length)
    ∧ (phrase ≠ [] → ∀ r ∈ find_exact_offsets text phrase, 0 < r.length)
    ∧ (phrase ≠ [] → ∀ r ∈ find_fuzzy_offsets text phrase t, 0 < r.length)
    ∧ List.Pairwise (fun r s => r.offset < s.offset) (find_exact_offsets text phrase)
    ∧ List.Pairwise (fun r s => r.offset < s.offset) (find_fuzzy_offsets text phrase t) := by
  have hexact : ∀ r ∈ find_exact_offsets text phrase,
      r.length = phrase.length ∧ r.offset + r.length ≤ text.length := by
    intro r hr
    rw [find_exact_offsets_eq, List.mem_map] at hr
    rcases hr with ⟨i, hi, rfl⟩
    rw [List.mem_filter, List.mem_range] at hi
    have hm := of_decide_eq_true hi.2
    have hlen : ((text.drop i).take phrase.length).length = phrase.length := by rw [hm]
    simp only [List.length_take, List.length_drop] at hlen
    have hi1 := hi.1
    exact ⟨rfl, by simp only; omega⟩
  have hfuzzy : ∀ r ∈ find_fuzzy_offsets text phrase t,
      r.length = phrase.length ∧ r.offset + r.length ≤ text.length := by
    intro r hr
    by_cases hg : phrase.length = 0 ∨ text.length < phrase.length
    · rw [find_fuzzy_offsets_nil text phrase t hg] at hr
      exact absurd hr (List.not_mem_nil r)
    · have hp : phrase ≠ [] := by
        intro h
        exact hg (Or.inl (by rw [h]; rfl))
      have hl : phrase.length ≤ text.length := by omega
      rw [find_fuzzy_offsets_eq text phrase t hp hl, List.mem_map] at hr
      rcases hr with ⟨i, hi, rfl⟩
      rw [List.mem_filter, List.mem_range] at hi
      have hi1 := hi.1
      exact ⟨rfl, by simp only; omega⟩
  refine ⟨hexact, hfuzzy, ?_, ?_, ?_, ?_⟩
  · intro hp r hr
    have := (hexact r hr).1
    have hL1 : 1 ≤ phrase.length := List.length_pos.mpr hp
    omega
  · intro hp r hr
    have := (hfuzzy r hr).1
    have hL1 : 1 ≤ phrase.length := List.length_pos.mpr hp
    omega
  · rw [find_exact_offsets_eq, List.pairwise_map]
    exact List.Pairwise.filter _ (List.pairwise_lt_range _)
  · by_cases hg : phrase.length = 0 ∨ text.length < phrase.length
    · rw [find_fuzzy_offsets_nil text phrase t hg]
      exact List.Pairwise.nil
    · have hp : phrase ≠ [] := by
        intro h
        exact hg (Or.inl (by rw [h]; rfl))
      have hl : phrase.length ≤ text.length := by omega
      rw [find_fuzzy_offsets_eq text phrase t hp hl, List.pairwise_map]
      exact List.Pairwise.filter _ (List.pairwise_lt_range _)

/-- Witness for C7 (amended): a record of the exact scan on text "ab",
phrase "b" has positive length. -/
theorem claim_C7_amended_witness : 0 < (⟨1, 1⟩ : ExactRec).length :=
  (claim_C7_amended ['a', 'b'] ['b'] 0).2.2.1 (by decide) ⟨1, 1⟩ (by decide)
